import Mathlib

/-!
Verification of the StarLens core against its specification: the hybrid
retrieval comparator, stage-1 score fusion, the search-worker strict to
balanced fallback, the resumable enrichment job with its checkpoints and
single-flight guard, the backup export/import round-trip, and the local
hashed bag-of-words embedding.

Definitions are shallow embeddings of the TypeScript source
(src/pages/Dashboard.tsx, src/workers/searchWorker.ts, the search service,
the backup service, src/lib/ai.ts). JavaScript numbers are modelled as
rationals; JavaScript strings as Lean strings or character lists where the
proofs must evaluate them.
-/

/-- Per-query candidate record, CandidateState in Dashboard.tsx (lines 984-997).
The repo object is abstracted to its id. -/
structure CandidateState where
  repoId : Nat
  stage1Score : ℚ
  hardPriority : ℚ
  titleScore : ℚ
  descScore : ℚ
  readmeScore : ℚ
  codeScore : ℚ
  lexicalScore : ℚ
  semanticScore : ℚ
  blendedScore : ℚ
  aiRank : ℚ
  firstSeen : ℚ
deriving DecidableEq, Repr

/-- The compound comparator compareCandidates, Dashboard.tsx lines 1025-1035:
hardPriority asc, titleScore desc, descScore desc, readmeScore desc,
codeScore desc, aiRank asc, blendedScore desc, stage1Score desc,
firstSeen asc. Returns the signed difference the JS comparator returns. -/
def compareCandidates (a b : CandidateState) : ℚ :=
  if a.hardPriority ≠ b.hardPriority then a.hardPriority - b.hardPriority
  else if b.titleScore ≠ a.titleScore then b.titleScore - a.titleScore
  else if b.descScore ≠ a.descScore then b.descScore - a.descScore
  else if b.readmeScore ≠ a.readmeScore then b.readmeScore - a.readmeScore
  else if b.codeScore ≠ a.codeScore then b.codeScore - a.codeScore
  else if a.aiRank ≠ b.aiRank then a.aiRank - b.aiRank
  else if b.blendedScore ≠ a.blendedScore then b.blendedScore - a.blendedScore
  else if b.stage1Score ≠ a.stage1Score then b.stage1Score - a.stage1Score
  else a.firstSeen - b.firstSeen

/-- Boolean order induced by the comparator: a sorts no later than b. -/
def candLE (a b : CandidateState) : Bool := decide (compareCandidates a b ≤ 0)

/-- Array.prototype.sort with compareCandidates, modelled by the stable merge
sort on the comparator-induced order (used at Dashboard.tsx lines 1749 and
1796). -/
def sortCandidates (l : List CandidateState) : List CandidateState :=
  l.mergeSort candLE

/-- Lexicographic signed comparison of two key lists: the value of a chain of
JS-style `if (x !== y) return x - y;` steps. -/
def lexCmp : List ℚ → List ℚ → ℚ
  | x :: xs, y :: ys => if x = y then lexCmp xs ys else x - y
  | _, _ => 0

/-- Sort key of a candidate: the comparator keys in order, descending fields
negated. -/
def keyList (a : CandidateState) : List ℚ :=
  [a.hardPriority, -a.titleScore, -a.descScore, -a.readmeScore, -a.codeScore,
   a.aiRank, -a.blendedScore, -a.stage1Score, a.firstSeen]

/-- Sentinel aiRank Number.MAX_SAFE_INTEGER. -/
def maxSafeInteger : ℚ := 9007199254740991

/-- The fresh candidate record upsertCandidate creates for an id not yet in
the map (Dashboard.tsx lines 1546-1559). -/
def initCandidate (repoId : Nat) (scoreDelta : ℚ) (seenOrder : Nat) : CandidateState :=
  { repoId := repoId
    stage1Score := scoreDelta
    hardPriority := 99
    titleScore := 0
    descScore := 0
    readmeScore := 0
    codeScore := 0
    lexicalScore := 0
    semanticScore := 0
    blendedScore := 0
    aiRank := maxSafeInteger
    firstSeen := (seenOrder : ℚ) }

/-- upsertCandidate (Dashboard.tsx lines 1543-1563). The JS Map keyed by repo
id with its insertion-ordered values() is modelled as the insertion-ordered
list paired with the seenOrder counter: an existing id accumulates
stage1Score in place, a new id is appended with the next firstSeen. -/
def upsertCandidate (st : List CandidateState × Nat) (repoId : Nat) (scoreDelta : ℚ) :
    List CandidateState × Nat :=
  if st.1.any (fun c => c.repoId == repoId) then
    (st.1.map (fun c => if c.repoId = repoId then
        { c with stage1Score := c.stage1Score + scoreDelta } else c), st.2)
  else
    (st.1 ++ [initCandidate repoId scoreDelta st.2], st.2 + 1)

/-- Stage-1 candidate accumulation: all hits (id, scoreDelta) folded through
upsertCandidate starting from the empty map and seenOrder 0. -/
def buildCandidates (hits : List (Nat × ℚ)) : List CandidateState :=
  (hits.foldl (fun st h => upsertCandidate st h.1 h.2) ([], 0)).1

/-- Top score of a lexical plan, Dashboard.tsx line 1566:
`hits[0]?.score || 1` (an absent or zero head score falls back to 1). -/
def planTopScore (scores : List ℚ) : ℚ :=
  match scores with
  | [] => 1
  | s :: _ => if s = 0 then 1 else s

/-- Contribution of one lexical hit, Dashboard.tsx lines 1568-1573:
normalized = topScore > 0 ? score / topScore : 0, rankQuality = 1 - rank/total,
weighted = weight * (normalized * 0.75 + rankQuality * 0.25). -/
def lexContribution (weight topScore score rank total : ℚ) : ℚ :=
  (fun normalized rankQuality => weight * (normalized * 0.75 + rankQuality * 0.25))
    (if 0 < topScore then score / topScore else 0) (1 - rank / total)

/-- Similarity derived from a vector hit distance, Dashboard.tsx lines
1603-1607: finite distance gives 1 / (1 + max 0 distance), a non-finite
distance (modelled as none) gives 0. -/
def vectorSimilarity (distance : Option ℚ) : ℚ :=
  match distance with
  | some d => 1 / (1 + max 0 d)
  | none => 0

/-- Contribution of one vector hit, Dashboard.tsx lines 1611-1613:
rankQuality = 1 - idx/total, weighted = 1.8 * (similarity * 0.8 + rankQuality * 0.2). -/
def vectorContribution (distance : Option ℚ) (idx total : ℚ) : ℚ :=
  (fun rankQuality => 1.8 * (vectorSimilarity distance * 0.8 + rankQuality * 0.2))
    (1 - idx / total)

/-- The stage-1 contribution formula as the specification words it:
weight times (0.75 times normalizedScore plus 0.25 times (1 minus rank/total)).
Stated from the spec only, for comparison with the source definitions. -/
def specStage1Contribution (weight normalizedScore rank total : ℚ) : ℚ :=
  weight * (0.75 * normalizedScore + 0.25 * (1 - rank / total))

/-- Retrieval modes of the lexical worker (searchWorker.ts line 14). -/
inductive SearchMode where
  | strict
  | balanced
  | broad
deriving DecidableEq, Repr

/-- A lexical hit as returned by the worker (searchWorker.ts lines 16-19). -/
structure SearchHit where
  id : Nat
  score : ℚ
deriving DecidableEq, Repr

/-- JS String.prototype.trim over the character list. -/
def jsTrim (s : List Char) : List Char :=
  ((s.dropWhile Char.isWhitespace).reverse.dropWhile Char.isWhitespace).reverse

/-- handleSearch from searchWorker.ts lines 91-102. The MiniSearch instance is
abstracted as the engine function from mode to the ranked hits it returns for
the (fixed) query: a strict search with zero hits is retried in balanced mode,
then the hits are truncated to the limit. -/
def handleSearch (engine : SearchMode → List SearchHit) (query : List Char)
    (lim : Nat) (mode : SearchMode) : List SearchHit :=
  if jsTrim query = [] then []
  else
    (fun results =>
      (if results.length = 0 ∧ mode = SearchMode.strict
        then engine SearchMode.balanced else results).take lim)
    (engine mode)

/-- Persisted IndexJob record (the `index_job` syncState row). -/
structure IndexJobRecord where
  queue : List Nat
  done : Nat
  total : Nat
deriving DecidableEq, Repr

/-- Chunk size of the enrichment loop, INDEX_BATCH_SIZE in Dashboard.tsx. -/
def INDEX_BATCH_SIZE : Nat := 6

/-- Job record created by handleIndex (Dashboard.tsx lines 1410-1416):
queue of unindexed ids, done 0, total the queue length. -/
def mkIndexJob (ids : List Nat) : IndexJobRecord :=
  { queue := ids, done := 0, total := ids.length }

/-- The while loop of resumeIndexJob (Dashboard.tsx lines 1156-1180). succ
abstracts the per-batch success count indexRepositories reports (failures may
be arbitrary). Returns the list of persisted checkpoints in order and the
accumulated successCount. -/
def resumeLoop (succ : List Nat → Nat) (remaining : List Nat)
    (done processed total : Nat) : List IndexJobRecord × Nat :=
  if h : remaining = [] then ([], 0)
  else
    let batchIds := remaining.take INDEX_BATCH_SIZE
    let processed2 := processed + batchIds.length
    let remaining2 := remaining.drop batchIds.length
    let rest := resumeLoop succ remaining2 done processed2 total
    (⟨remaining2, done + processed2, total⟩ :: rest.1, succ batchIds + rest.2)
termination_by remaining.length
decreasing_by
  have hp : 0 < remaining.length := List.length_pos.mpr h
  simp only [List.length_drop, List.length_take, INDEX_BATCH_SIZE]
  omega

/-- Result of one full resumeIndexJob run. -/
structure ResumeRun where
  checkpoints : List IndexJobRecord
  successCount : Nat
  jobDeleted : Bool
deriving DecidableEq, Repr

/-- resumeIndexJob body after the guard (Dashboard.tsx lines 1152-1193): run
the checkpointing loop over the queue, then unconditionally delete the
persisted job record. -/
def resumeIndexJobRun (succ : List Nat → Nat) (queue : List Nat)
    (done total : Nat) : ResumeRun :=
  { checkpoints := (resumeLoop succ queue done 0 total).1
    successCount := (resumeLoop succ queue done 0 total).2
    jobDeleted := true }

/-- runWithPool (Dashboard.tsx lines 1261-1283). Each worker invocation is
wrapped in try/catch: a failure (Option.none) leaves that slot unset and the
runner moves on. The pool runners consume a shared index counter so every
index is claimed exactly once; the model is the deterministic sequential
schedule of that loop. -/
def runPoolGo {T R : Type} (worker : Nat → T → Option R) :
    List T → Nat → List (Option R)
  | [], _ => []
  | t :: ts, i => worker i t :: runPoolGo worker ts (i + 1)

/-- runWithPool entry: all items processed starting at index 0. -/
def runWithPool {T R : Type} (items : List T) (worker : Nat → T → Option R) :
    List (Option R) :=
  runPoolGo worker items 0

/-- Phase of the (single) enrichment run held by the Dashboard component. -/
inductive RunPhase where
  | idle
  | running (remaining : List Nat) (done : Nat) (processed : Nat) (total : Nat)
deriving DecidableEq, Repr

/-- Dashboard state relevant to the single-flight discipline: the
processingRef guard flag, the persisted index_job row, and the run phase. -/
structure EnrichMachine where
  processing : Bool
  jobRecord : Option IndexJobRecord
  phase : RunPhase
deriving DecidableEq, Repr

/-- Entry of resumeIndexJob (Dashboard.tsx lines 1147-1150): the guard
check-and-set is synchronous JS, hence atomic with respect to the event loop.
A call while processing returns immediately with nothing changed. -/
def startResume (m : EnrichMachine) (queue : List Nat) (done total : Nat) :
    EnrichMachine :=
  if m.processing then m
  else { m with processing := true, phase := RunPhase.running queue done 0 total }

/-- One iteration of the resumeIndexJob while loop (Dashboard.tsx lines
1156-1187): with a non-empty queue, process one chunk and persist the
checkpoint; once the queue is drained, delete the job record and clear the
guard. -/
def chunkStep (m : EnrichMachine) : EnrichMachine :=
  match m.phase with
  | RunPhase.idle => m
  | RunPhase.running remaining done processed total =>
    if remaining = [] then
      { m with processing := false, jobRecord := none, phase := RunPhase.idle }
    else
      let batchIds := remaining.take INDEX_BATCH_SIZE
      let remaining2 := remaining.drop batchIds.length
      let processed2 := processed + batchIds.length
      { m with jobRecord := some ⟨remaining2, done + processed2, total⟩
               phase := RunPhase.running remaining2 done processed2 total }

/-- Guard discipline: whenever the guard is down, no run is in progress. -/
def GuardInv (m : EnrichMachine) : Prop :=
  m.processing = false → m.phase = RunPhase.idle

/-- Base64 alphabet used by btoa and atob. -/
def base64Alphabet : List Char :=
  ("ABCDEFGHIJKLMNOPQRSTUVWXYZabcdefghijklmnopqrstuvwxyz0123456789+/").toList

/-- Character of a sextet value. -/
def sextetChar (n : Nat) : Char := base64Alphabet.getD n ('=')

/-- Sextet value of an alphabet character. -/
def charSextet (c : Char) : Nat := base64Alphabet.indexOf c

/-- Bit-packing of byte triples into sextets, as btoa performs on the binary
string bufferToBase64 builds (one char per byte). -/
def sexEncode : List Nat → List Nat
  | a :: b :: c :: rest =>
    a / 4 :: ((a % 4) * 16 + b / 16) :: ((b % 16) * 4 + c / 64) :: c % 64 :: sexEncode rest
  | [a, b] => [a / 4, (a % 4) * 16 + b / 16, (b % 16) * 4]
  | [a] => [a / 4, (a % 4) * 16]
  | [] => []

/-- Unpacking of sextet groups back into bytes, as atob performs. -/
def sexDecode : List Nat → List Nat
  | s1 :: s2 :: s3 :: s4 :: rest =>
    (s1 * 4 + s2 / 16) :: ((s2 % 16) * 16 + s3 / 4) :: ((s3 % 4) * 64 + s4) :: sexDecode rest
  | [s1, s2, s3] => [s1 * 4 + s2 / 16, (s2 % 16) * 16 + s3 / 4]
  | [s1, s2] => [s1 * 4 + s2 / 16]
  | _ => []

/-- Pad a base64 text to a multiple of four characters with '='. -/
def padBase64 (l : List Char) : List Char :=
  l ++ List.replicate ((4 - l.length % 4) % 4) ('=')

/-- bufferToBase64 (backup service lines 20-27): bytes to base64 text. -/
def bufferToBase64 (bytes : List Nat) : List Char :=
  padBase64 ((sexEncode bytes).map sextetChar)

/-- base64ToBuffer (backup service lines 29-37): base64 text to bytes. -/
def base64ToBuffer (s : List Char) : List Nat :=
  sexDecode ((s.filter (fun c => c ≠ ('='))).map charSextet)

/-- The vectorStore row of the durable store: raw snapshot bytes. -/
structure VectorStoreRecord where
  id : String
  version : Option String
  snapshot : Option (List Nat)
deriving DecidableEq, Repr

/-- The vectorStore entry of a backup payload: base64 snapshot text. -/
structure BackupVectorStore where
  id : String
  version : Option String
  snapshot : Option (List Char)
deriving DecidableEq, Repr

/-- The durable store collections the backup service touches. Repository,
syncState and settings rows are opaque to the service, so their types are
parameters. -/
structure Store (α σ υ : Type) where
  repositories : List α
  syncState : List σ
  settings : List υ
  vectorStore : Option VectorStoreRecord
deriving DecidableEq, Repr

/-- BackupPayload (backup service lines 5-16). -/
structure BackupPayload (α σ υ : Type) where
  version : String
  exported_at : String
  repositories : List α
  syncState : List σ
  settings : List υ
  vectorStore : Option BackupVectorStore
deriving DecidableEq, Repr

/-- BACKUP_VERSION (backup service line 18). -/
def BACKUP_VERSION : String := "1"

/-- backupService.exportAll (lines 40-63): snapshot bytes are base64 encoded;
an absent vectorStore row or snapshot stays absent. now is the exported_at
timestamp. -/
def exportAll {α σ υ : Type} (s : Store α σ υ) (now : String) : BackupPayload α σ υ :=
  { version := BACKUP_VERSION
    exported_at := now
    repositories := s.repositories
    syncState := s.syncState
    settings := s.settings
    vectorStore := s.vectorStore.map (fun v =>
      { id := v.id, version := v.version, snapshot := v.snapshot.map bufferToBase64 }) }

/-- Transaction body of backupService.import (lines 97-122): clear all four
collections, then bulk-put the payload rows. The multi-collection read-write
transaction is atomic, hence one pure store transform. JS truthiness: the
vectorStore row is written only when the payload carries a nonempty base64
snapshot text, and an empty id falls back to "main". -/
def importTransaction {α σ υ : Type} (payload : BackupPayload α σ υ) : Store α σ υ :=
  { repositories := payload.repositories
    syncState := payload.syncState
    settings := payload.settings
    vectorStore :=
      match payload.vectorStore with
      | some v =>
        match v.snapshot with
        | some snap =>
          if snap = [] then none
          else some { id := if v.id = "" then "main" else v.id
                      version := v.version
                      snapshot := some (base64ToBuffer snap) }
        | none => none
      | none => none }

/-- backupService.import (lines 92-123): a null payload or a version other
than BACKUP_VERSION throws before the transaction starts, leaving the store
untouched; otherwise the transaction is applied. The pair carries the
resulting store and the thrown message, if any. -/
def importRun {α σ υ : Type} (p : Option (BackupPayload α σ υ)) (s : Store α σ υ) :
    Store α σ υ × Option String :=
  match p with
  | none => (s, some ("Invalid or incompatible backup file"))
  | some payload =>
    if payload.version ≠ BACKUP_VERSION then
      (s, some ("Invalid or incompatible backup file"))
    else
      (importTransaction payload, none)

/-- JS word character class (the complement of the split regex in
AIService.getEmbedding): ASCII letters, digits, underscore. -/
def jsWordChar (c : Char) : Bool := c.isAlphanum || c == ('_')

/-- Splitting on runs of non-word characters with empty pieces dropped:
text.toLowerCase().split on non-word runs, .filter(Boolean). acc holds the
current token reversed. -/
def splitWords : List Char → List Char → List (List Char)
  | [], acc => if acc = [] then [] else [acc.reverse]
  | c :: cs, acc =>
    if jsWordChar c then splitWords cs (c :: acc)
    else if acc = [] then splitWords cs []
    else acc.reverse :: splitWords cs []

/-- Tokens of AIService.getEmbedding (ai.ts line 111). -/
def embedTokens (text : List Char) : List (List Char) :=
  splitWords (text.map Char.toLower) []

/-- The 32-bit string hash of ai.ts lines 112-116:
h = (h * 31 + charCode) >>> 0 folded over the token. Tokens hold only word
characters, which are ASCII, so charCodeAt equals the code point. -/
def hashToken (t : List Char) : Nat :=
  t.foldl (fun h c => (h * 31 + c.toNat) % 4294967296) 0

/-- Increment slot i of the vector. -/
def bumpAt (v : List Nat) (i : Nat) : List Nat := v.set i (v.getD i 0 + 1)

/-- The unnormalized 256-dim hashed bag-of-words counts (ai.ts lines 109-119). -/
def rawCounts (text : List Char) : List Nat :=
  (embedTokens text).foldl (fun v t => bumpAt v (hashToken t % 256)) (List.replicate 256 0)

/-- AIService.getEmbedding (ai.ts lines 106-126): counts, then L2
normalization with norm = sqrt(sum of squares) || 1. sq abstracts the
floating-point Math.sqrt. -/
def getEmbedding (sq : ℚ → ℚ) (text : List Char) : List ℚ :=
  (fun counts =>
    (fun sumSq =>
      (fun norm => counts.map (fun (n : Nat) => (n : ℚ) / norm))
      (if sq sumSq = 0 then 1 else sq sumSq))
    ((counts.map (fun (n : Nat) => (n : ℚ) * (n : ℚ))).sum))
  (rawCounts text)

/-- Demo candidate at hardPriority tier 0 (exact name match). -/
def candTier0 : CandidateState :=
  { repoId := 1, stage1Score := 0, hardPriority := 0, titleScore := 0,
    descScore := 0, readmeScore := 0, codeScore := 0, lexicalScore := 0,
    semanticScore := 0, blendedScore := 0, aiRank := 0, firstSeen := 0 }

/-- Demo candidate at a worse tier with otherwise high scores. -/
def candTier3 : CandidateState :=
  { repoId := 2, stage1Score := 50, hardPriority := 3, titleScore := 700,
    descScore := 300, readmeScore := 200, codeScore := 400, lexicalScore := 0,
    semanticScore := 0, blendedScore := 5000, aiRank := 0, firstSeen := 1 }

/-- Demo worker engine: strict finds nothing, other modes find one hit. -/
def demoEngine : SearchMode → List SearchHit
  | SearchMode.strict => []
  | _ => [{ id := 7, score := 1 }]

/-- Demo pool worker: the item 10 fails, everything else succeeds. -/
def demoWorker : Nat → Nat → Option Unit := fun _ t => if t = 10 then none else some ()

/-- Demo store without a vector snapshot. -/
def demoStoreEmpty : Store Nat Nat Nat :=
  { repositories := [], syncState := [], settings := [], vectorStore := none }

/-- Demo store carrying a nonempty vector snapshot. -/
def demoSnapStore : Store Nat Nat Nat :=
  { repositories := [3], syncState := [4], settings := [5],
    vectorStore := some { id := "main", version := some ("v1"), snapshot := some [5, 255] } }

/-- Demo store whose vector snapshot is present but empty. -/
def demoEmptySnapStore : Store Nat Nat Nat :=
  { repositories := [], syncState := [], settings := [],
    vectorStore := some { id := "main", version := some ("v1"), snapshot := some [] } }

/-- Demo payload with a mismatched version. -/
def demoBadPayload : BackupPayload Nat Nat Nat :=
  { version := "2", exported_at := "t", repositories := [], syncState := [],
    settings := [], vectorStore := none }

/-- Demo payload with the matching version. -/
def demoGoodPayload : BackupPayload Nat Nat Nat :=
  { version := "1", exported_at := "t", repositories := [8], syncState := [],
    settings := [], vectorStore := none }

/-- Demo machine with the guard set. -/
def demoMachine : EnrichMachine :=
  { processing := true, jobRecord := none, phase := RunPhase.idle }

theorem lexCmp_nil_left (ys : List ℚ) : lexCmp [] ys = 0 := by
  cases ys <;> rfl

theorem lexCmp_nil_right (xs : List ℚ) : lexCmp xs [] = 0 := by
  cases xs <;> rfl

theorem lexCmp_swap (xs : List ℚ) : ∀ ys : List ℚ, lexCmp ys xs = -lexCmp xs ys := by
  induction xs with
  | nil =>
    intro ys
    rw [lexCmp_nil_left, lexCmp_nil_right, neg_zero]
  | cons x xs ih =>
    intro ys
    cases ys with
    | nil => rw [lexCmp_nil_left, lexCmp_nil_right, neg_zero]
    | cons y ys =>
      simp only [lexCmp]
      by_cases e : x = y
      · rw [if_pos e.symm, if_pos e]
        exact ih ys
      · rw [if_neg (fun hc => e hc.symm), if_neg e]
        ring

theorem lexCmp_trans_len (xs : List ℚ) : ∀ ys zs : List ℚ,
    xs.length = ys.length → ys.length = zs.length →
    lexCmp xs ys ≤ 0 → lexCmp ys zs ≤ 0 → lexCmp xs zs ≤ 0 := by
  induction xs with
  | nil =>
    intro ys zs _ _ _ _
    rw [lexCmp_nil_left]
  | cons x xs ih =>
    intro ys zs h1 h2 hxy hyz
    cases ys with
    | nil => simp at h1
    | cons y ys =>
      cases zs with
      | nil => simp at h2
      | cons z zs =>
        have h1t : xs.length = ys.length := by simpa using h1
        have h2t : ys.length = zs.length := by simpa using h2
        simp only [lexCmp] at hxy hyz ⊢
        by_cases e1 : x = y <;> by_cases e2 : y = z
        · rw [if_pos e1] at hxy
          rw [if_pos e2] at hyz
          rw [if_pos (e1.trans e2)]
          exact ih ys zs h1t h2t hxy hyz
        · rw [if_neg e2] at hyz
          rw [if_neg (fun hc => e2 (e1.symm.trans hc))]
          rw [e1]
          exact hyz
        · rw [if_neg e1] at hxy
          rw [if_neg (fun hc => e1 (hc.trans e2.symm))]
          rw [← e2]
          exact hxy
        · rw [if_neg e1] at hxy
          rw [if_neg e2] at hyz
          have hx : x < y := lt_of_le_of_ne (by linarith) e1
          have hy : y < z := lt_of_le_of_ne (by linarith) e2
          rw [if_neg (by intro hc; rw [hc] at hx; linarith)]
          linarith

theorem lexCmp_eq_zero (xs : List ℚ) : ∀ ys : List ℚ, xs.length = ys.length →
    lexCmp xs ys = 0 → xs = ys := by
  induction xs with
  | nil =>
    intro ys h _
    cases ys with
    | nil => rfl
    | cons y ys => simp at h
  | cons x xs ih =>
    intro ys h hz
    cases ys with
    | nil => simp at h
    | cons y ys =>
      simp only [lexCmp] at hz
      by_cases e : x = y
      · rw [if_pos e] at hz
        rw [e, ih ys (by simpa using h) hz]
      · rw [if_neg e] at hz
        exact absurd (sub_eq_zero.mp hz) e

theorem compare_eq_lexCmp (a b : CandidateState) :
    compareCandidates a b = lexCmp (keyList a) (keyList b) := by
  simp only [compareCandidates, keyList, lexCmp]
  by_cases h1 : a.hardPriority = b.hardPriority
  · rw [if_neg (fun hc => hc h1), if_pos h1]
    by_cases h2 : b.titleScore = a.titleScore
    · rw [if_neg (fun hc => hc h2), if_pos (show -a.titleScore = -b.titleScore by rw [h2])]
      by_cases h3 : b.descScore = a.descScore
      · rw [if_neg (fun hc => hc h3), if_pos (show -a.descScore = -b.descScore by rw [h3])]
        by_cases h4 : b.readmeScore = a.readmeScore
        · rw [if_neg (fun hc => hc h4),
            if_pos (show -a.readmeScore = -b.readmeScore by rw [h4])]
          by_cases h5 : b.codeScore = a.codeScore
          · rw [if_neg (fun hc => hc h5),
              if_pos (show -a.codeScore = -b.codeScore by rw [h5])]
            by_cases h6 : a.aiRank = b.aiRank
            · rw [if_neg (fun hc => hc h6), if_pos h6]
              by_cases h7 : b.blendedScore = a.blendedScore
              · rw [if_neg (fun hc => hc h7),
                  if_pos (show -a.blendedScore = -b.blendedScore by rw [h7])]
                by_cases h8 : b.stage1Score = a.stage1Score
                · rw [if_neg (fun hc => hc h8),
                    if_pos (show -a.stage1Score = -b.stage1Score by rw [h8])]
                  by_cases h9 : a.firstSeen = b.firstSeen
                  · rw [if_pos h9, h9, sub_self]
                  · rw [if_neg h9]
                · rw [if_pos h8, if_neg (fun hc => h8 (by linarith))]
                  ring
              · rw [if_pos h7, if_neg (fun hc => h7 (by linarith))]
                ring
            · rw [if_pos h6, if_neg h6]
          · rw [if_pos h5, if_neg (fun hc => h5 (by linarith))]
            ring
        · rw [if_pos h4, if_neg (fun hc => h4 (by linarith))]
          ring
      · rw [if_pos h3, if_neg (fun hc => h3 (by linarith))]
        ring
    · rw [if_pos h2, if_neg (fun hc => h2 (by linarith))]
      ring
  · rw [if_pos h1, if_neg h1]

theorem candLE_iff (a b : CandidateState) :
    candLE a b = true ↔ lexCmp (keyList a) (keyList b) ≤ 0 := by
  rw [candLE, decide_eq_true_eq, compare_eq_lexCmp]

theorem candLE_trans (a b c : CandidateState) (h1 : candLE a b = true)
    (h2 : candLE b c = true) : candLE a c = true := by
  rw [candLE_iff] at h1 h2 ⊢
  exact lexCmp_trans_len (keyList a) (keyList b) (keyList c) rfl rfl h1 h2

theorem candLE_total (a b : CandidateState) : (candLE a b || candLE b a) = true := by
  rw [Bool.or_eq_true, candLE_iff, candLE_iff]
  by_cases h : lexCmp (keyList a) (keyList b) ≤ 0
  · exact Or.inl h
  · refine Or.inr ?_
    rw [lexCmp_swap]
    linarith

theorem candLE_hp_mono (a b : CandidateState) (h : candLE a b = true) :
    a.hardPriority ≤ b.hardPriority := by
  rw [candLE_iff] at h
  simp only [keyList, lexCmp] at h
  by_cases e : a.hardPriority = b.hardPriority
  · exact le_of_eq e
  · rw [if_neg e] at h
    linarith

theorem candLE_antisymm_fs (a b : CandidateState) (h1 : candLE a b = true)
    (h2 : candLE b a = true) : a.firstSeen = b.firstSeen := by
  rw [candLE_iff] at h1 h2
  rw [lexCmp_swap] at h2
  have hz : lexCmp (keyList a) (keyList b) = 0 := le_antisymm h1 (by linarith)
  have hk := lexCmp_eq_zero (keyList a) (keyList b) rfl hz
  simp only [keyList, List.cons.injEq, and_true] at hk
  exact hk.2.2.2.2.2.2.2.2

theorem sortCandidates_sorted (l : List CandidateState) :
    (sortCandidates l).Pairwise (fun a b => candLE a b = true) := by
  exact List.sorted_mergeSort candLE_trans candLE_total l

/-- C2: in the final list produced by sorting candidates with
compareCandidates (the sort also re-applied after the optional AI rerank),
every candidate at hardPriority tier 0 is ordered before every candidate at a
strictly worse tier, regardless of all other scores. -/
theorem claim_C2 (l : List CandidateState) (i j : Nat)
    (hi : i < (sortCandidates l).length) (hj : j < (sortCandidates l).length)
    (h0 : ((sortCandidates l).get ⟨i, hi⟩).hardPriority = 0)
    (hj0 : 0 < ((sortCandidates l).get ⟨j, hj⟩).hardPriority) : i < j := by
  by_contra hc
  rcases Nat.lt_or_ge j i with hlt | hge
  · have hp := List.pairwise_iff_getElem.mp (sortCandidates_sorted l) j i hj hi hlt
    have hmono := candLE_hp_mono _ _ hp
    simp only [List.get_eq_getElem] at h0 hj0
    rw [h0] at hmono
    linarith
  · have : j = i := le_antisymm (Nat.le_of_not_lt hc) hge
    subst this
    simp only [List.get_eq_getElem] at h0 hj0
    rw [h0] at hj0
    linarith

theorem sortDemo : sortCandidates [candTier0, candTier3] = [candTier0, candTier3] := by
  apply List.mergeSort_of_sorted
  constructor
  · intro b hb
    have hb2 : b = candTier3 := by simpa using hb
    subst hb2
    rw [candLE, decide_eq_true_eq]
    norm_num [compareCandidates, candTier0, candTier3]
  · constructor
    · intro b hb
      simp at hb
    · exact List.Pairwise.nil

/-- Witness for C2 at a concrete sorted list. -/
theorem claim_C2_witness :
    (0 : Nat) < 2 ∧ (1 : Nat) < 2 ∧ (0 : Nat) < 1 := by
  have hlen : (sortCandidates [candTier0, candTier3]).length = 2 := by
    rw [sortDemo]
    rfl
  refine ⟨by omega, by omega, ?_⟩
  refine claim_C2 [candTier0, candTier3] 0 1 (by rw [hlen]; omega) (by rw [hlen]; omega) ?_ ?_
  · simp only [List.get_eq_getElem, sortDemo, List.getElem_cons_zero]
    rfl
  · simp only [List.get_eq_getElem, sortDemo, List.getElem_cons_succ, List.getElem_cons_zero]
    norm_num [candTier3]

theorem upsert_seenInv (st : List CandidateState × Nat) (r : Nat) (d : ℚ)
    (h1 : st.2 = st.1.length)
    (h2 : ∀ i (hi : i < st.1.length), (st.1.get ⟨i, hi⟩).firstSeen = (i : ℚ)) :
    (upsertCandidate st r d).2 = (upsertCandidate st r d).1.length ∧
    ∀ i (hi : i < (upsertCandidate st r d).1.length),
      ((upsertCandidate st r d).1.get ⟨i, hi⟩).firstSeen = (i : ℚ) := by
  unfold upsertCandidate
  by_cases hany : st.1.any (fun c => c.repoId == r)
  · rw [if_pos hany]
    refine ⟨by simpa using h1, ?_⟩
    intro i hi
    simp only [List.length_map] at hi
    simp only [List.get_eq_getElem, List.getElem_map]
    have he := h2 i hi
    simp only [List.get_eq_getElem] at he
    split
    · exact he
    · exact he
  · rw [if_neg hany]
    refine ⟨by simp [h1], ?_⟩
    intro i hi
    simp only [List.length_append, List.length_singleton] at hi
    simp only [List.get_eq_getElem]
    by_cases hlt : i < st.1.length
    · rw [List.getElem_append_left hlt]
      have he := h2 i hlt
      simp only [List.get_eq_getElem] at he
      exact he
    · have hieq : i = st.1.length := by omega
      subst hieq
      rw [List.getElem_append_right (le_refl _)]
      simp only [Nat.sub_self, List.getElem_cons_zero]
      rw [initCandidate]
      rw [h1]

theorem foldl_seenInv (hits : List (Nat × ℚ)) :
    ∀ st : List CandidateState × Nat,
    st.2 = st.1.length →
    (∀ i (hi : i < st.1.length), (st.1.get ⟨i, hi⟩).firstSeen = (i : ℚ)) →
    (hits.foldl (fun st h => upsertCandidate st h.1 h.2) st).2 =
      (hits.foldl (fun st h => upsertCandidate st h.1 h.2) st).1.length ∧
    ∀ i (hi : i < (hits.foldl (fun st h => upsertCandidate st h.1 h.2) st).1.length),
      ((hits.foldl (fun st h => upsertCandidate st h.1 h.2) st).1.get ⟨i, hi⟩).firstSeen
        = (i : ℚ) := by
  induction hits with
  | nil =>
    intro st h1 h2
    exact ⟨h1, h2⟩
  | cons h t ih =>
    intro st h1 h2
    simp only [List.foldl_cons]
    obtain ⟨g1, g2⟩ := upsert_seenInv st h.1 h.2 h1 h2
    exact ih _ g1 g2

theorem buildCandidates_distinct (hits : List (Nat × ℚ)) :
    (buildCandidates hits).Pairwise (fun a b => a.firstSeen ≠ b.firstSeen) := by
  have hfs : ∀ i (hi : i < (buildCandidates hits).length),
      ((buildCandidates hits).get ⟨i, hi⟩).firstSeen = (i : ℚ) :=
    (foldl_seenInv hits ([], 0) rfl (by intro i hi; simp at hi)).2
  rw [List.pairwise_iff_getElem]
  intro i j hi hj hij
  have e1 := hfs i hi
  have e2 := hfs j hj
  simp only [List.get_eq_getElem] at e1 e2
  intro hc
  rw [e1, e2] at hc
  have hn : i = j := by exact_mod_cast hc
  omega

theorem sorted_unique (l₁ : List CandidateState) : ∀ l₂ : List CandidateState,
    l₁.Perm l₂ →
    (∀ a ∈ l₁, ∀ b ∈ l₁, a.firstSeen = b.firstSeen → a = b) →
    l₁.Pairwise (fun a b => candLE a b = true) →
    l₂.Pairwise (fun a b => candLE a b = true) → l₁ = l₂ := by
  induction l₁ with
  | nil =>
    intro l₂ hp _ _ _
    exact hp.nil_eq
  | cons a t ih =>
    intro l₂ hp hinj hs1 hs2
    cases l₂ with
    | nil =>
      have := hp.length_eq
      simp at this
    | cons b t₂ =>
      rcases List.pairwise_cons.mp hs1 with ⟨ha, hs1t⟩
      rcases List.pairwise_cons.mp hs2 with ⟨hb, hs2t⟩
      have hab : a = b := by
        by_cases he : a = b
        · exact he
        · have hbmem : b ∈ a :: t := hp.symm.subset (List.mem_cons_self b t₂)
          have hamem : a ∈ b :: t₂ := hp.subset (List.mem_cons_self a t)
          have hb_in_t : b ∈ t := by
            rcases List.mem_cons.mp hbmem with h | h
            · exact absurd h.symm he
            · exact h
          have ha_in_t2 : a ∈ t₂ := by
            rcases List.mem_cons.mp hamem with h | h
            · exact absurd h he
            · exact h
          have hle1 : candLE a b = true := ha b hb_in_t
          have hle2 : candLE b a = true := hb a ha_in_t2
          exact hinj a (List.mem_cons_self a t) b hbmem (candLE_antisymm_fs a b hle1 hle2)
      subst hab
      have htp : t.Perm t₂ := hp.cons_inv
      have hinj2 : ∀ x ∈ t, ∀ y ∈ t, x.firstSeen = y.firstSeen → x = y := by
        intro x hx y hy
        exact hinj x (List.mem_cons_of_mem a hx) y (List.mem_cons_of_mem a hy)
      rw [ih t₂ htp hinj2 hs1t hs2t]

/-- C8: hybrid ranking with AI rewriting and reranking disabled is
deterministic. Stage-1 accumulation (upsertCandidate folded over the hits)
assigns every candidate a distinct firstSeen insertion counter, and because
the compound comparator ends with firstSeen, a candidate list with distinct
firstSeen values admits exactly one sorted arrangement: any two sorted
permutations of it are equal, so repeated runs over identical inputs yield
the identical ordered id list. -/
theorem claim_C8 (hits : List (Nat × ℚ)) (l₁ l₂ : List CandidateState)
    (hperm : l₁.Perm l₂)
    (hinj : ∀ a ∈ l₁, ∀ b ∈ l₁, a.firstSeen = b.firstSeen → a = b)
    (hs1 : l₁.Pairwise (fun a b => candLE a b = true))
    (hs2 : l₂.Pairwise (fun a b => candLE a b = true)) :
    (buildCandidates hits).Pairwise (fun a b => a.firstSeen ≠ b.firstSeen) ∧ l₁ = l₂ :=
  ⟨buildCandidates_distinct hits, sorted_unique l₁ l₂ hperm hinj hs1 hs2⟩

/-- Witness for C8 at a concrete hit list and sorted singleton lists. -/
theorem claim_C8_witness :
    (buildCandidates [((1 : Nat), (1 : ℚ))]).Pairwise
      (fun a b => a.firstSeen ≠ b.firstSeen) ∧
    [candTier0] = [candTier0] := by
  refine claim_C8 [((1 : Nat), (1 : ℚ))] [candTier0] [candTier0] (List.Perm.refl _) ?_ ?_ ?_
  · intro a ha b hb _
    simp only [List.mem_singleton] at ha hb
    rw [ha, hb]
  · exact List.Pairwise.cons (by intro b hb; simp at hb) List.Pairwise.nil
  · exact List.Pairwise.cons (by intro b hb; simp at hb) List.Pairwise.nil

/-- Counterexample to C3 as stated: the vector hit at distance 0, rank 1 of
2 hits, receives 1.8 * (0.8 * 1 + 0.2 * (1/2)) = 1.62, while the claimed
formula with the vector weight gives 1.8 * (0.75 * 1 + 0.25 * (1/2)) = 1.575. -/
theorem claim_C3_counterexample :
    vectorContribution (some 0) 1 2 ≠
      specStage1Contribution 1.8 (vectorSimilarity (some 0)) 1 2 := by
  norm_num [vectorContribution, vectorSimilarity, specStage1Contribution, max_self]

/-- C3 amended: every lexical hit contributes exactly the spec formula
weight * (0.75 * normalizedScore + 0.25 * (1 - rank/total)) with
normalizedScore = score / topScore whenever the plan top score is positive,
but every vector hit instead contributes with fixed weight 1.8 and an
0.8 / 0.2 blend: 1.8 * (0.8 * similarity + 0.2 * (1 - rank/total)). -/
theorem claim_C3 (weight topScore score rank total : ℚ) (d : Option ℚ)
    (idx vtotal : ℚ) (hpos : 0 < topScore) :
    lexContribution weight topScore score rank total =
      specStage1Contribution weight (score / topScore) rank total ∧
    vectorContribution d idx vtotal =
      1.8 * (0.8 * vectorSimilarity d + 0.2 * (1 - idx / vtotal)) := by
  constructor
  · simp only [lexContribution, specStage1Contribution]
    rw [if_pos hpos]
    ring
  · simp only [vectorContribution]
    ring

/-- Witness for the amended C3 at concrete scores. -/
theorem claim_C3_witness :
    (0 : ℚ) < 2 ∧
    (lexContribution 1 2 1 0 1 = specStage1Contribution 1 (1 / 2) 0 1 ∧
     vectorContribution (some 0) 1 2 =
       1.8 * (0.8 * vectorSimilarity (some 0) + 0.2 * (1 - 1 / 2))) :=
  ⟨by norm_num, claim_C3 1 2 1 0 1 (some 0) 1 2 (by norm_num)⟩

/-- C4: for a built index (the abstract engine), a non-blank query and a
positive limit, the strict-mode worker result contains every hit of the
truncated strict-only result (the balanced fallback can only add hits), and
it is non-empty whenever the balanced search has any lexical match. -/
theorem claim_C4 (engine : SearchMode → List SearchHit) (query : List Char)
    (lim : Nat) (hq : jsTrim query ≠ []) (hlim : 0 < lim) :
    (∀ h ∈ (engine SearchMode.strict).take lim,
      h ∈ handleSearch engine query lim SearchMode.strict) ∧
    (engine SearchMode.balanced ≠ [] →
      handleSearch engine query lim SearchMode.strict ≠ []) := by
  simp only [handleSearch]
  rw [if_neg hq]
  by_cases hemp : (engine SearchMode.strict).length = 0
  · have hnil : engine SearchMode.strict = [] := List.length_eq_zero.mp hemp
    rw [if_pos ⟨hemp, trivial⟩]
    constructor
    · intro h hh
      rw [hnil] at hh
      simp at hh
    · intro hbal
      rw [Ne, List.take_eq_nil_iff]
      push_neg
      exact ⟨by omega, hbal⟩
  · rw [if_neg (fun hc => hemp hc.1)]
    constructor
    · intro h hh
      exact hh
    · intro _
      rw [Ne, List.take_eq_nil_iff]
      push_neg
      refine ⟨by omega, ?_⟩
      intro hc
      exact hemp (by rw [hc]; rfl)

/-- Witness for C4: strict finds nothing, balanced finds the hit, and the
worker result is indeed non-empty. -/
theorem claim_C4_witness :
    jsTrim [('a')] ≠ [] ∧ (0 : Nat) < 1 ∧
    handleSearch demoEngine [('a')] 1 SearchMode.strict ≠ [] :=
  ⟨by decide, by decide,
   (claim_C4 demoEngine [('a')] 1 (by decide) (by decide)).2 (by decide)⟩

theorem runPoolGo_length {T R : Type} (worker : Nat → T → Option R) :
    ∀ (ts : List T) (i : Nat), (runPoolGo worker ts i).length = ts.length := by
  intro ts
  induction ts with
  | nil => intro i; rfl
  | cons t ts ih =>
    intro i
    simp only [runPoolGo, List.length_cons, ih]

theorem runPoolGo_get {T R : Type} (worker : Nat → T → Option R) :
    ∀ (ts : List T) (i j : Nat) (hj : j < ts.length)
      (hj2 : j < (runPoolGo worker ts i).length),
      (runPoolGo worker ts i).get ⟨j, hj2⟩ = worker (i + j) (ts.get ⟨j, hj⟩) := by
  intro ts
  induction ts with
  | nil =>
    intro i j hj hj2
    simp at hj
  | cons t ts ih =>
    intro i j hj hj2
    cases j with
    | zero => simp [runPoolGo]
    | succ j =>
      simp only [runPoolGo, List.get_eq_getElem, List.getElem_cons_succ]
      have hjt : j < ts.length := by simpa using hj
      have hjt2 : j < (runPoolGo worker ts (i + 1)).length := by
        rw [runPoolGo_length]
        exact hjt
      have := ih (i + 1) j hjt hjt2
      simp only [List.get_eq_getElem] at this
      rw [this]
      congr 1
      omega

theorem resumeLoop_nil (succ : List Nat → Nat) (done processed total : Nat) :
    resumeLoop succ [] done processed total = ([], 0) := by
  rw [resumeLoop]
  rw [dif_pos rfl]

theorem resumeLoop_cons (succ : List Nat → Nat) (remaining : List Nat)
    (h : remaining ≠ []) (done processed total : Nat) :
    resumeLoop succ remaining done processed total =
      (⟨remaining.drop (remaining.take INDEX_BATCH_SIZE).length,
        done + (processed + (remaining.take INDEX_BATCH_SIZE).length), total⟩ ::
        (resumeLoop succ (remaining.drop (remaining.take INDEX_BATCH_SIZE).length) done
          (processed + (remaining.take INDEX_BATCH_SIZE).length) total).1,
       succ (remaining.take INDEX_BATCH_SIZE) +
        (resumeLoop succ (remaining.drop (remaining.take INDEX_BATCH_SIZE).length) done
          (processed + (remaining.take INDEX_BATCH_SIZE).length) total).2) := by
  rw [resumeLoop]
  rw [dif_neg h]

theorem drop_take_lt (remaining : List Nat) (h : remaining ≠ []) :
    (remaining.drop (remaining.take INDEX_BATCH_SIZE).length).length < remaining.length := by
  have hp : 0 < remaining.length := List.length_pos.mpr h
  simp only [List.length_drop, List.length_take, INDEX_BATCH_SIZE]
  omega

theorem resumeLoop_ckpt_indep (s1 s2 : List Nat → Nat) (n : Nat) :
    ∀ remaining : List Nat, remaining.length ≤ n → ∀ done processed total : Nat,
    (resumeLoop s1 remaining done processed total).1 =
      (resumeLoop s2 remaining done processed total).1 := by
  induction n with
  | zero =>
    intro remaining hlen done processed total
    have hr : remaining = [] := List.length_eq_zero.mp (by omega)
    subst hr
    rw [resumeLoop_nil, resumeLoop_nil]
  | succ n ih =>
    intro remaining hlen done processed total
    by_cases h : remaining = []
    · subst h
      rw [resumeLoop_nil, resumeLoop_nil]
    · rw [resumeLoop_cons s1 remaining h, resumeLoop_cons s2 remaining h]
      have hlt := drop_take_lt remaining h
      simp only [List.cons.injEq, true_and]
      exact ih _ (by omega) done (processed + (remaining.take INDEX_BATCH_SIZE).length) total

theorem resumeLoop_inv (succ : List Nat → Nat) (n : Nat) :
    ∀ remaining : List Nat, remaining.length ≤ n → ∀ done processed total : Nat,
    done + processed + remaining.length = total →
    ∀ c ∈ (resumeLoop succ remaining done processed total).1,
      c.done + c.queue.length = c.total ∧ c.total = total := by
  induction n with
  | zero =>
    intro remaining hlen done processed total _ c hc
    have hr : remaining = [] := List.length_eq_zero.mp (by omega)
    subst hr
    rw [resumeLoop_nil] at hc
    simp at hc
  | succ n ih =>
    intro remaining hlen done processed total hinv c hc
    by_cases h : remaining = []
    · subst h
      rw [resumeLoop_nil] at hc
      simp at hc
    · rw [resumeLoop_cons succ remaining h] at hc
      have hlt := drop_take_lt remaining h
      have hlen2 : (remaining.take INDEX_BATCH_SIZE).length +
          (remaining.drop (remaining.take INDEX_BATCH_SIZE).length).length
          = remaining.length := by
        simp only [List.length_drop, List.length_take]
        omega
      rcases List.mem_cons.mp hc with hc | hc
      · subst hc
        constructor
        · simp only []
          omega
        · rfl
      · exact ih _ (by omega) done (processed + (remaining.take INDEX_BATCH_SIZE).length)
          total (by omega) c hc

theorem resumeLoop_done (succ : List Nat → Nat) (n : Nat) :
    ∀ remaining : List Nat, remaining.length ≤ n → ∀ done processed total k
      (hk : k < (resumeLoop succ remaining done processed total).1.length),
      ((resumeLoop succ remaining done processed total).1.get ⟨k, hk⟩).done =
        done + processed + min ((k + 1) * INDEX_BATCH_SIZE) remaining.length := by
  induction n with
  | zero =>
    intro remaining hlen done processed total k hk
    have hr : remaining = [] := List.length_eq_zero.mp (by omega)
    subst hr
    rw [resumeLoop_nil] at hk
    simp at hk
  | succ n ih =>
    intro remaining hlen done processed total k hk
    by_cases h : remaining = []
    · subst h
      rw [resumeLoop_nil] at hk
      simp at hk
    · have hlt := drop_take_lt remaining h
      have htl : (remaining.take INDEX_BATCH_SIZE).length
          = min INDEX_BATCH_SIZE remaining.length := List.length_take _ _
      have hlist : (resumeLoop succ remaining done processed total).1 =
          (⟨remaining.drop (remaining.take INDEX_BATCH_SIZE).length,
            done + (processed + (remaining.take INDEX_BATCH_SIZE).length), total⟩ :
              IndexJobRecord) ::
            (resumeLoop succ (remaining.drop (remaining.take INDEX_BATCH_SIZE).length) done
              (processed + (remaining.take INDEX_BATCH_SIZE).length) total).1 :=
        congrArg Prod.fst (resumeLoop_cons succ remaining h done processed total)
      rcases k with _ | k
      · simp only [List.get_eq_getElem]
        rw [List.getElem_of_eq hlist]
        simp only [List.getElem_cons_zero]
        rw [htl]
        simp only [INDEX_BATCH_SIZE]
        omega
      · have hk2 : k < (resumeLoop succ
            (remaining.drop (remaining.take INDEX_BATCH_SIZE).length)
            done (processed + (remaining.take INDEX_BATCH_SIZE).length) total).1.length := by
          have := hk
          rw [hlist] at this
          simpa using this
        simp only [List.get_eq_getElem]
        rw [List.getElem_of_eq hlist]
        simp only [List.getElem_cons_succ]
        have hrec := ih _ (by omega) done
          (processed + (remaining.take INDEX_BATCH_SIZE).length) total k hk2
        simp only [List.get_eq_getElem] at hrec
        rw [hrec, htl]
        simp only [List.length_drop, INDEX_BATCH_SIZE] at *
        omega

/-- C1: at job creation the record satisfies done + queue length = total;
in any resume run whose starting values satisfy done + queue length = total
(as fixed at creation or carried over from the resumed record), every
persisted checkpoint (one per chunk of INDEX_BATCH_SIZE items) satisfies
done + queue length = total with total carried unchanged; and after the
queue drains the job record is deleted rather than left behind. -/
theorem claim_C1 (succ : List Nat → Nat) (queue : List Nat) (done total : Nat)
    (hinv : done + queue.length = total) :
    (∀ ids : List Nat,
      (mkIndexJob ids).done + (mkIndexJob ids).queue.length = (mkIndexJob ids).total) ∧
    (∀ c ∈ (resumeIndexJobRun succ queue done total).checkpoints,
      c.done + c.queue.length = c.total ∧ c.total = total) ∧
    (resumeIndexJobRun succ queue done total).jobDeleted = true := by
  refine ⟨fun ids => by simp [mkIndexJob], ?_, rfl⟩
  intro c hc
  exact resumeLoop_inv succ queue.length queue (le_refl _) done 0 total (by omega) c hc

/-- Witness for C1 at a concrete seven-item queue. -/
theorem claim_C1_witness :
    0 + [1, 2, 3, 4, 5, 6, 7].length = 7 ∧
    (mkIndexJob [9]).done + (mkIndexJob [9]).queue.length = (mkIndexJob [9]).total ∧
    (resumeIndexJobRun (fun _ => 0) [1, 2, 3, 4, 5, 6, 7] 0 7).jobDeleted = true :=
  ⟨by decide,
   (claim_C1 (fun _ => 0) [1, 2, 3, 4, 5, 6, 7] 0 7 (by decide)).1 [9],
   (claim_C1 (fun _ => 0) [1, 2, 3, 4, 5, 6, 7] 0 7 (by decide)).2.2⟩

/-- C5: a failure of one pooled item neither aborts the chunk nor disturbs
any other item: slot i of the pool result is exactly what worker returns for
item i, whatever happens elsewhere (errors are caught, Option.none recorded);
and the checkpoint sequence of a resume run is entirely independent of the
per-batch success counts, with the k-th persisted done counter equal to
done + min ((k+1) * INDEX_BATCH_SIZE) (queue length): progress advances by
the full chunk size even when every item of the chunk failed. -/
theorem claim_C5 {T R : Type} (items : List T) (worker : Nat → T → Option R)
    (i : Nat) (hi : i < items.length) (hi2 : i < (runWithPool items worker).length)
    (s1 s2 : List Nat → Nat) (queue : List Nat) (done total : Nat) :
    (runWithPool items worker).get ⟨i, hi2⟩ = worker i (items.get ⟨i, hi⟩) ∧
    (resumeIndexJobRun s1 queue done total).checkpoints =
      (resumeIndexJobRun s2 queue done total).checkpoints ∧
    ∀ k (hk : k < (resumeIndexJobRun s1 queue done total).checkpoints.length),
      ((resumeIndexJobRun s1 queue done total).checkpoints.get ⟨k, hk⟩).done =
        done + min ((k + 1) * INDEX_BATCH_SIZE) queue.length := by
  refine ⟨?_, ?_, ?_⟩
  · have h := runPoolGo_get worker items 0 i hi hi2
    simpa using h
  · exact resumeLoop_ckpt_indep s1 s2 queue.length queue (le_refl _) done 0 total
  · intro k hk
    have h := resumeLoop_done s1 queue.length queue (le_refl _) done 0 total k hk
    simpa using h

/-- Witness for C5: the first item fails yet the second slot holds its own
result, and checkpoints agree between an all-fail and an all-succeed run. -/
theorem claim_C5_witness :
    1 < [(10 : Nat), 20].length ∧
    (runWithPool [(10 : Nat), 20] demoWorker).get ⟨1, by decide⟩ =
      demoWorker 1 ([(10 : Nat), 20].get ⟨1, by decide⟩) ∧
    (resumeIndexJobRun (fun _ => 0) [1, 2, 3] 0 3).checkpoints =
      (resumeIndexJobRun (fun b => b.length) [1, 2, 3] 0 3).checkpoints := by
  have h := claim_C5 [(10 : Nat), 20] demoWorker 1 (by decide) (by decide)
    (fun _ => 0) (fun b => b.length) [1, 2, 3] 0 3
  exact ⟨by decide, h.1, h.2.1⟩

/-- C9: while the single-flight guard flag is set, any further resume call
returns the machine unchanged, processing no item, writing no checkpoint and
leaving the guard as it is, so a second run can never start while one is
active; the guard discipline is preserved by every step; a chunk step on a
non-empty queue keeps the guard set; and only the step that finds the queue
drained clears the guard, deleting the job record. -/
theorem claim_C9 (m : EnrichMachine) (queue : List Nat) (done total : Nat)
    (remaining : List Nat) (d p t : Nat) (j : Option IndexJobRecord)
    (hrem : remaining ≠ []) (hm : m.processing = true) :
    startResume m queue done total = m ∧
    (GuardInv m → GuardInv (startResume m queue done total) ∧ GuardInv (chunkStep m)) ∧
    (chunkStep
      { processing := true
        jobRecord := j
        phase := RunPhase.running remaining d p t }).processing = true ∧
    (chunkStep
      { processing := true
        jobRecord := j
        phase := RunPhase.running [] d p t }).processing = false ∧
    (chunkStep
      { processing := true
        jobRecord := j
        phase := RunPhase.running [] d p t }).jobRecord = none := by
  refine ⟨by rw [startResume, if_pos hm], ?_, ?_, ?_, ?_⟩
  · intro hg
    constructor
    · rw [startResume]
      by_cases hp : m.processing
      · rw [if_pos hp]
        exact hg
      · rw [if_neg hp]
        intro hc
        exact Bool.noConfusion hc
    · rw [GuardInv]
      cases hphase : m.phase with
      | idle =>
        simp only [chunkStep, hphase]
        intro _
        trivial
      | running rem dd pp tt =>
        simp only [chunkStep, hphase]
        by_cases hr : rem = []
        · rw [if_pos hr]
          intro _
          rfl
        · rw [if_neg hr]
          intro hc
          have hidle := hg hc
          rw [hphase] at hidle
          exact RunPhase.noConfusion hidle
  · simp only [chunkStep]
    rw [if_neg hrem]
  · simp only [chunkStep]
    rw [if_pos trivial]
  · simp only [chunkStep]
    rw [if_pos trivial]

/-- Witness for C9 at a concrete guarded machine and a concrete queue. -/
theorem claim_C9_witness :
    [1] ≠ ([] : List Nat) ∧ demoMachine.processing = true ∧
    startResume demoMachine [2] 0 1 = demoMachine ∧
    (chunkStep
      { processing := true
        jobRecord := none
        phase := RunPhase.running [] 0 0 0 }).processing = false := by
  have h := claim_C9 demoMachine [2] 0 1 [1] 0 0 0 none (by decide) (by decide)
  exact ⟨by decide, by decide, h.1, h.2.2.2.1⟩

theorem sexEncode_lt : ∀ bytes : List Nat, (∀ x ∈ bytes, x < 256) →
    ∀ s ∈ sexEncode bytes, s < 64
  | [], _, s, hs => by simp [sexEncode] at hs
  | [a], h, s, hs => by
    have ha := h a (by simp)
    simp only [sexEncode, List.mem_cons, List.not_mem_nil, or_false] at hs
    rcases hs with hs | hs <;> omega
  | [a, b], h, s, hs => by
    have ha := h a (by simp)
    have hb := h b (by simp)
    simp only [sexEncode, List.mem_cons, List.not_mem_nil, or_false] at hs
    rcases hs with hs | hs | hs <;> omega
  | a :: b :: c :: rest, h, s, hs => by
    have ha := h a (by simp)
    have hb := h b (by simp)
    have hc := h c (by simp)
    simp only [sexEncode, List.mem_cons] at hs
    rcases hs with hs | hs | hs | hs | hs
    · omega
    · omega
    · omega
    · omega
    · exact sexEncode_lt rest (fun x hx => h x (by simp [hx])) s hs

theorem sexDecode_encode : ∀ bytes : List Nat, (∀ x ∈ bytes, x < 256) →
    sexDecode (sexEncode bytes) = bytes
  | [], _ => rfl
  | [a], h => by
    have ha := h a (by simp)
    simp only [sexEncode, sexDecode, List.cons.injEq, and_true]
    omega
  | [a, b], h => by
    have ha := h a (by simp)
    have hb := h b (by simp)
    simp only [sexEncode, sexDecode, List.cons.injEq, and_true]
    constructor <;> omega
  | a :: b :: c :: rest, h => by
    have ha := h a (by simp)
    have hb := h b (by simp)
    have hc := h c (by simp)
    simp only [sexEncode, sexDecode, List.cons.injEq]
    refine ⟨by omega, by omega, by omega, ?_⟩
    exact sexDecode_encode rest (fun x hx => h x (by simp [hx]))

theorem charSextet_sextetChar : ∀ n < 64, charSextet (sextetChar n) = n := by
  decide

theorem sextetChar_ne_pad (n : Nat) (h : n < 64) : sextetChar n ≠ ('=') := by
  revert n
  decide

theorem filter_padBase64 (l : List Char) (h : ∀ c ∈ l, c ≠ ('=')) :
    (padBase64 l).filter (fun c => c ≠ ('=')) = l := by
  rw [padBase64, List.filter_append]
  have h1 : l.filter (fun c => c ≠ ('=')) = l := by
    rw [List.filter_eq_self]
    intro c hc
    simpa using h c hc
  have h2 : (List.replicate ((4 - l.length % 4) % 4) ('=')).filter
      (fun c => c ≠ ('=')) = [] := by
    rw [List.filter_eq_nil_iff]
    intro c hc
    have := List.eq_of_mem_replicate hc
    simp [this]
  rw [h1, h2, List.append_nil]

theorem base64_roundtrip (bytes : List Nat) (h : ∀ x ∈ bytes, x < 256) :
    base64ToBuffer (bufferToBase64 bytes) = bytes := by
  rw [bufferToBase64, base64ToBuffer]
  rw [filter_padBase64]
  · rw [List.map_map]
    have hmap : (sexEncode bytes).map (charSextet ∘ sextetChar) = sexEncode bytes := by
      have hcongr : ∀ s ∈ sexEncode bytes, (charSextet ∘ sextetChar) s = id s := by
        intro s hs
        exact charSextet_sextetChar s (sexEncode_lt bytes h s hs)
      rw [List.map_congr_left hcongr, List.map_id]
    rw [hmap]
    exact sexDecode_encode bytes h
  · intro c hc
    rcases List.mem_map.mp hc with ⟨s, hs, rfl⟩
    exact sextetChar_ne_pad s (sexEncode_lt bytes h s hs)

theorem sexEncode_ne_nil : ∀ bytes : List Nat, bytes ≠ [] → sexEncode bytes ≠ []
  | [], h => absurd rfl h
  | [a], _ => by simp [sexEncode]
  | [a, b], _ => by simp [sexEncode]
  | a :: b :: c :: rest, _ => by simp [sexEncode]

theorem bufferToBase64_ne_nil (bytes : List Nat) (h : bytes ≠ []) :
    bufferToBase64 bytes ≠ [] := by
  rw [bufferToBase64, padBase64]
  intro hc
  rcases List.append_eq_nil.mp hc with ⟨h1, _⟩
  exact sexEncode_ne_nil bytes h (List.map_eq_nil_iff.mp h1)

/-- C6: a null payload, or one whose version is not exactly BACKUP_VERSION,
makes import throw before the transaction starts, leaving repositories,
syncState, settings and vectorStore exactly as they were; a payload with the
matching version is applied as the single atomic multi-collection
transaction importTransaction. -/
theorem claim_C6 {α σ υ : Type} (p : Option (BackupPayload α σ υ)) (s : Store α σ υ)
    (pay : BackupPayload α σ υ)
    (hbad : p = none ∨ ∀ q, p = some q → q.version ≠ BACKUP_VERSION)
    (hv : pay.version = BACKUP_VERSION) :
    importRun p s = (s, some ("Invalid or incompatible backup file")) ∧
    importRun (some pay) s = (importTransaction pay, none) := by
  constructor
  · rcases hbad with hb | hb
    · subst hb
      rfl
    · cases p with
      | none => rfl
      | some q =>
        simp only [importRun]
        rw [if_pos (hb q rfl)]
  · simp only [importRun]
    rw [if_neg (fun hc => hc hv)]

/-- Witness for C6: a version-2 payload is rejected with the store unchanged,
a version-1 payload is applied. -/
theorem claim_C6_witness :
    importRun (some demoBadPayload) demoStoreEmpty =
      (demoStoreEmpty, some ("Invalid or incompatible backup file")) ∧
    importRun (some demoGoodPayload) demoStoreEmpty =
      (importTransaction demoGoodPayload, none) :=
  claim_C6 (some demoBadPayload) demoStoreEmpty demoGoodPayload
    (Or.inr (fun q hq => by cases hq; decide)) (by decide)

/-- Counterexample to C7 as stated: a store whose vectorStore row carries a
present but empty snapshot loses the row (and its version tag) on the
export/import round trip, because the empty base64 text is falsy on import. -/
theorem claim_C7_counterexample :
    (importRun (some (exportAll demoEmptySnapStore ("t")))
      demoEmptySnapStore).1.vectorStore = none ∧
    demoEmptySnapStore.vectorStore ≠ none := by
  constructor
  · rfl
  · decide

/-- C7 amended: for every store whose vectorStore snapshot, when present, is
a nonempty byte list, exporting then importing restores the identical
repository rows, syncState rows and settings rows, and a vectorStore row
with the identical version tag and identical snapshot bytes: the base64
encoding performed on export is exactly inverted on import. (A present but
empty snapshot is dropped by import, see the counterexample.) -/
theorem claim_C7 {α σ υ : Type} (s s0 : Store α σ υ) (now : String)
    (hsnap : ∀ v, s.vectorStore = some v →
      ∃ bytes, v.snapshot = some bytes ∧ bytes ≠ [] ∧ ∀ x ∈ bytes, x < 256) :
    (importRun (some (exportAll s now)) s0).2 = none ∧
    (importRun (some (exportAll s now)) s0).1.repositories = s.repositories ∧
    (importRun (some (exportAll s now)) s0).1.syncState = s.syncState ∧
    (importRun (some (exportAll s now)) s0).1.settings = s.settings ∧
    (importRun (some (exportAll s now)) s0).1.vectorStore.map
        (fun r => (r.version, r.snapshot)) =
      s.vectorStore.map (fun r => (r.version, r.snapshot)) := by
  have hrun : importRun (some (exportAll s now)) s0 =
      (importTransaction (exportAll s now), none) := by
    simp only [importRun]
    rw [if_neg (fun hc => hc rfl)]
  rw [hrun]
  refine ⟨rfl, rfl, rfl, rfl, ?_⟩
  cases hvs : s.vectorStore with
  | none =>
    simp [importTransaction, exportAll, hvs]
  | some v =>
    obtain ⟨bytes, hb, hne, hlt⟩ := hsnap v hvs
    simp only [importTransaction, exportAll, hvs, hb, Option.map_some']
    rw [if_neg (bufferToBase64_ne_nil bytes hne)]
    simp only [Option.map_some']
    rw [base64_roundtrip bytes hlt]

/-- Witness for C7 at a store with a two-byte snapshot. -/
theorem claim_C7_witness :
    (importRun (some (exportAll demoSnapStore ("t"))) demoStoreEmpty).2 = none ∧
    (importRun (some (exportAll demoSnapStore ("t"))) demoStoreEmpty).1.repositories =
      demoSnapStore.repositories ∧
    (importRun (some (exportAll demoSnapStore ("t"))) demoStoreEmpty).1.syncState =
      demoSnapStore.syncState ∧
    (importRun (some (exportAll demoSnapStore ("t"))) demoStoreEmpty).1.settings =
      demoSnapStore.settings ∧
    (importRun (some (exportAll demoSnapStore ("t"))) demoStoreEmpty).1.vectorStore.map
        (fun r => (r.version, r.snapshot)) =
      demoSnapStore.vectorStore.map (fun r => (r.version, r.snapshot)) :=
  claim_C7 demoSnapStore demoStoreEmpty ("t")
    (fun v hv => by cases hv; exact ⟨[5, 255], rfl, by decide, by decide⟩)

theorem foldl_bump_length (tokens : List (List Char)) :
    ∀ v : List Nat,
      (tokens.foldl (fun v t => bumpAt v (hashToken t % 256)) v).length = v.length := by
  induction tokens with
  | nil => intro v; rfl
  | cons t ts ih =>
    intro v
    simp only [List.foldl_cons]
    rw [ih]
    simp [bumpAt]

theorem rawCounts_length (text : List Char) : (rawCounts text).length = 256 := by
  rw [rawCounts, foldl_bump_length]
  rw [List.length_replicate]

/-- C10: getEmbedding is a total local computation (no external call in the
model): for every input it yields exactly 256 entries, every entry is
non-negative (counts are non-negative and the norm divisor is positive for
any square root satisfying 0 <= x implies 0 <= sq x, with the || 1 fallback),
and an input with no word tokens yields the all-zero vector. -/
theorem claim_C10 (sq : ℚ → ℚ) (text : List Char)
    (hsq : ∀ x : ℚ, 0 ≤ x → 0 ≤ sq x) :
    (getEmbedding sq text).length = 256 ∧
    (∀ e ∈ getEmbedding sq text, 0 ≤ e) ∧
    (embedTokens text = [] → getEmbedding sq text = List.replicate 256 0) := by
  have hsum : (0 : ℚ) ≤ ((rawCounts text).map (fun (n : Nat) => (n : ℚ) * (n : ℚ))).sum := by
    apply List.sum_nonneg
    intro x hx
    rcases List.mem_map.mp hx with ⟨n, _, rfl⟩
    positivity
  have hnorm : 0 < (if sq (((rawCounts text).map (fun (n : Nat) => (n : ℚ) * (n : ℚ))).sum) = 0 then 1
      else sq (((rawCounts text).map (fun (n : Nat) => (n : ℚ) * (n : ℚ))).sum)) := by
    by_cases hz : sq (((rawCounts text).map (fun (n : Nat) => (n : ℚ) * (n : ℚ))).sum) = 0
    · rw [if_pos hz]
      norm_num
    · rw [if_neg hz]
      exact lt_of_le_of_ne (hsq _ hsum) (Ne.symm hz)
  refine ⟨?_, ?_, ?_⟩
  · simp only [getEmbedding]
    rw [List.length_map, rawCounts_length]
  · intro e he
    simp only [getEmbedding] at he
    rcases List.mem_map.mp he with ⟨n, _, rfl⟩
    exact div_nonneg (by positivity) (le_of_lt hnorm)
  · intro htok
    have hraw : rawCounts text = List.replicate 256 0 := by
      rw [rawCounts, htok]
      rfl
    simp only [getEmbedding, hraw]
    rw [List.map_replicate, Nat.cast_zero, zero_div]

/-- Witness for C10 with the identity in place of the square root and a
token-free input. -/
theorem claim_C10_witness :
    (getEmbedding (fun x => x) [('!')]).length = 256 ∧
    getEmbedding (fun x => x) [('!')] = List.replicate 256 0 :=
  ⟨(claim_C10 (fun x => x) [('!')] (fun x hx => hx)).1,
   (claim_C10 (fun x => x) [('!')] (fun x hx => hx)).2.2 (by decide)⟩
